import Mathlib

/-!
Verification of the concurrency-coordination toolkit: a shallow embedding of
the four Python modules (race-condition counter, bakery producer/consumer,
dining philosophers, thread-pool demo) as explicit-state interleaving
semantics, together with proofs and refutations of the specified properties.

Threads are modelled as program counters inside explicit global states; at
each moment the scheduler nondeterministically picks a runnable thread and
executes its next atomic action.  `stepOf s i` is the deterministic effect of
scheduling thread `i` in state `s` (`none` when thread `i` is blocked or
finished), so a whole execution is a list of scheduler choices.
-/

set_option autoImplicit false

namespace ConcurrencyDemos

/-! ### Generic interleaving-scheduler framework -/

/-- Run a list of scheduler choices: at each step, thread `i` executes its next
atomic action via `stepOf`; the run fails if a chosen thread is not runnable. -/
def runSched {σ : Type} (stepOf : σ → Nat → Option σ) : σ → List Nat → Option σ
  | s, [] => some s
  | s, i :: rest =>
    match stepOf s i with
    | none => none
    | some s2 => runSched stepOf s2 rest

/-- One interleaving step: some thread executes its next atomic action. -/
def StepRel {σ : Type} (stepOf : σ → Nat → Option σ) (s s2 : σ) : Prop :=
  ∃ i, stepOf s i = some s2

/-- States reachable from `s` by any finite interleaving of thread actions. -/
def Reachable {σ : Type} (stepOf : σ → Nat → Option σ) (s s2 : σ) : Prop :=
  Relation.ReflTransGen (StepRel stepOf) s s2

/-! ### Part 1 — `part1_race_condition.py` -/

namespace Part1

/-- Errors a Python attribute access can raise; `with None:` raises at runtime
(modelled as a single error kind, the only failure channel `Counter` has). -/
inductive PyError
  | attributeError
deriving Repr, DecidableEq

/-- Class `Counter` from `part1_race_condition.py`: `value`, `use_lock`, and the
lock object (`threading.Lock() if use_lock else None`, identity only). -/
structure Counter where
  value : Nat
  use_lock : Bool
  lock : Option Unit
deriving Repr, DecidableEq

/-- Constructor `Counter.__init__(use_lock)`: value 0, lock created iff `use_lock`. -/
def Counter.init (use_lock : Bool) : Counter :=
  { value := 0, use_lock := use_lock, lock := if use_lock then some () else none }

/-- Method `Counter._increment_logic`, one uninterrupted execution: read `value` into
`temp`, add one, write back (the sleep only widens the race window). -/
def Counter._increment_logic (c : Counter) : Counter :=
  { c with value := c.value + 1 }

/-- Method `Counter.increment`, one call run to completion without interleaving:
when `use_lock` is set, `with self.lock:` enters the lock (raising if the
lock object were `None`) and runs the logic; otherwise the logic runs bare. -/
def Counter.increment (c : Counter) : Except PyError Counter :=
  if c.use_lock then
    match c.lock with
    | some _ => .ok c._increment_logic
    | none => .error .attributeError
  else
    .ok c._increment_logic

/-- A `Counter` is well-formed when its lock object exists exactly if
`use_lock` is set; `Counter.init` only ever builds such states. -/
def Counter.WF (c : Counter) : Prop := c.use_lock = c.lock.isSome

instance (c : Counter) : Decidable c.WF := by unfold Counter.WF; infer_instance

/-- Program counter of one thread running guarded `increment` calls, split at
the atomic machine actions of `_increment_logic` under `with self.lock:`. -/
inductive ThreadPC
  | idle
  | locked
  | haveTemp (temp : Nat)
  | wrote
deriving Repr, DecidableEq

/-- One caller thread: how many `increment()` calls it still has to make, and
where inside the current call it stands. -/
structure CThread where
  remaining : Nat
  pc : ThreadPC
deriving Repr, DecidableEq

/-- Global state of the guarded-counter system: the shared `value`, which
thread currently holds `counter.lock` (if any), and all caller threads. -/
structure CState where
  value : Nat
  lockHolder : Option Nat
  threads : List CThread
deriving Repr, DecidableEq

/-- Next atomic action of thread `i` in the guarded (`use_lock=True`) system:
acquire the lock (blocking while held), read `value` into `temp`, write
`temp + 1` back, release the lock completing the call. -/
def CState.stepOf (s : CState) (i : Nat) : Option CState :=
  match s.threads.get? i with
  | none => none
  | some t =>
    match t.pc with
    | .idle =>
      if t.remaining = 0 then none
      else
        match s.lockHolder with
        | some _ => none
        | none => some { s with lockHolder := some i,
                                threads := s.threads.set i { t with pc := .locked } }
    | .locked =>
      some { s with threads := s.threads.set i { t with pc := .haveTemp s.value } }
    | .haveTemp temp =>
      some { s with value := temp + 1,
                    threads := s.threads.set i { t with pc := .wrote } }
    | .wrote =>
      some { s with lockHolder := none,
                    threads := s.threads.set i { t with remaining := t.remaining - 1,
                                                        pc := .idle } }

/-- Initial state of `run_simulation(use_lock=True, ...)` with one thread per
entry of `ks`, thread `j` due to make `ks[j]` increment calls. -/
def CState.init (ks : List Nat) : CState :=
  { value := 0, lockHolder := none, threads := ks.map fun k => ⟨k, .idle⟩ }

/-- One for a thread that has written but not yet released, else zero. -/
def CThread.wroteBit (t : CThread) : Nat :=
  match t.pc with
  | .wrote => 1
  | _ => 0

/-- Sum of the pending increment counts of all threads. -/
def CState.remSum (s : CState) : Nat := (s.threads.map CThread.remaining).sum

/-- Number of threads between their write-back and their lock release. -/
def CState.wroteCount (s : CState) : Nat := (s.threads.map CThread.wroteBit).sum

/-- Inductive invariant of the guarded-counter system for workload `ks`: the
updates applied to `value` account exactly for the completed calls plus the
written-but-unreleased ones; every thread inside a call holds the lock (so at
most one is inside) and still owes at least one call; and a thread that has
read `value` into its `temp` still sees the current value — the lock keeps
any other write from intervening between its read and its write. -/
def CInv (ks : List Nat) (s : CState) : Prop :=
  s.value + s.remSum = ks.sum + s.wroteCount ∧
  (∀ i t, s.threads.get? i = some t → t.pc ≠ .idle →
    1 ≤ t.remaining ∧ s.lockHolder = some i) ∧
  (∀ i t v, s.threads.get? i = some t → t.pc = .haveTemp v → v = s.value)

end Part1

/-! ### Part 2 — `part2_producer_consumer.py` -/

namespace Part2

/-- The typed failures of Python's `queue` module as used by the bakery:
`queue.Full` from a timed-out `put`, `queue.Empty` from a timed-out `get`. -/
inductive QueueError
  | Full
  | Empty
deriving Repr, DecidableEq

/-- The `queue.Queue(maxsize=...)` object holding the basket: a bounded FIFO
buffer, head of `items` = next item handed out. -/
structure PyQueue (α : Type) where
  maxsize : Nat
  items : List α
deriving Repr, DecidableEq

/-- Method `queue.Queue.put(item, timeout=...)` at the moment it resolves: if a free
slot exists (`maxsize` is only a bound when positive) the item is appended at
the tail; if the queue is still at capacity when the timeout elapses the call
raises `Full`.  Blocking-while-waiting is the scheduler's choice of when the
call resolves. -/
def PyQueue.put {α : Type} (q : PyQueue α) (x : α) : Except QueueError (PyQueue α) :=
  if 0 < q.maxsize ∧ q.maxsize ≤ q.items.length then .error .Full
  else .ok { q with items := q.items ++ [x] }

/-- Method `queue.Queue.get(timeout=...)` at the moment it resolves: removes and
returns the head item, or raises `Empty` when the timeout elapses with the
queue still empty. -/
def PyQueue.get {α : Type} (q : PyQueue α) : Except QueueError (α × PyQueue α) :=
  match q.items with
  | [] => .error .Empty
  | x :: rest => .ok (x, { q with items := rest })

/-- One channel operation issued by some caller: a put of an item or a get. -/
inductive ChanOp (α : Type)
  | put (x : α)
  | get
deriving Repr, DecidableEq

/-- Apply one operation to the queue; a `Full` or `Empty` failure is returned
to the caller and leaves the queue unchanged. -/
def applyOp {α : Type} (q : PyQueue α) : ChanOp α → PyQueue α
  | .put x =>
    match q.put x with
    | .ok q2 => q2
    | .error _ => q
  | .get =>
    match q.get with
    | .ok (_, q2) => q2
    | .error _ => q

/-- Apply a whole sequence of channel operations in order. -/
def applyOps {α : Type} (q : PyQueue α) (ops : List (ChanOp α)) : PyQueue α :=
  ops.foldl applyOp q

/-- Log of one run over the channel: the final queue, the items successfully
put (in arrival order at the buffer) and the items successfully got (in
delivery order). -/
structure RunLog (α : Type) where
  final : PyQueue α
  puts : List α
  gets : List α
deriving Repr, DecidableEq

/-- Run a sequence of channel operations, recording which items entered the
buffer and which items were delivered, both in chronological order. -/
def runOps {α : Type} (q : PyQueue α) : List (ChanOp α) → RunLog α
  | [] => ⟨q, [], []⟩
  | .put x :: rest =>
    match q.put x with
    | .ok q2 =>
      let r := runOps q2 rest
      ⟨r.final, x :: r.puts, r.gets⟩
    | .error _ => runOps q rest
  | .get :: rest =>
    match q.get with
    | .ok (y, q2) =>
      let r := runOps q2 rest
      ⟨r.final, r.puts, y :: r.gets⟩
    | .error _ => runOps q rest

/-- Program counter of one baker thread from `BakerySimulation.baker`,
split at its atomic actions. -/
inductive BakerPC
  | loopTop
  | lockCheck
  | prep (bread_id : Nat)
  | putting (bread_id : Nat)
  | finished
deriving Repr, DecidableEq

/-- Program counter of one customer thread from `BakerySimulation.customer`,
split at its atomic actions. -/
inductive CustPC
  | loopTop
  | getting
  | eating (bread_id : Nat)
  | finished
deriving Repr, DecidableEq

/-- Global state of `BakerySimulation`: the shared basket queue, the
configured `total_items`, the two lock-protected counters, the stop event,
and the program counters of the baker and customer threads.  Bread items are
identified by their `bread_id`. -/
structure BakerySimulation where
  basket : PyQueue Nat
  total_items : Nat
  items_produced : Nat
  items_consumed : Nat
  stop_event : Bool
  bakers : List BakerPC
  customers : List CustPC
deriving Repr, DecidableEq

/-- Constructor `BakerySimulation.__init__(max_basket_size, total_items)` with `nb` baker
threads and `nc` customer threads about to enter their loops: empty basket of
capacity `max_basket_size`, both counters zero, stop event clear. -/
def BakerySimulation.init (nb nc max_basket_size total_items : Nat) : BakerySimulation :=
  { basket := ⟨max_basket_size, []⟩
    total_items := total_items
    items_produced := 0
    items_consumed := 0
    stop_event := false
    bakers := List.replicate nb .loopTop
    customers := List.replicate nc .loopTop }

/-- Next atomic action of baker thread `j` (`BakerySimulation.baker`):
check the stop event at the loop head; then, as one lock-protected critical
section, either observe `items_produced >= total_items` (set the stop event
and leave the loop) or reserve `bread_id = items_produced` and increment
`items_produced`; then sleep/prepare; then `basket.put(..., timeout=2)`,
which on `queue.Full` prints a warning and continues the loop, abandoning the
prepared item. -/
def BakerySimulation.bakerStep (s : BakerySimulation) (j : Nat) : Option BakerySimulation :=
  match s.bakers.get? j with
  | none => none
  | some .loopTop =>
    if s.stop_event then some { s with bakers := s.bakers.set j .finished }
    else some { s with bakers := s.bakers.set j .lockCheck }
  | some .lockCheck =>
    if s.total_items ≤ s.items_produced then
      some { s with stop_event := true, bakers := s.bakers.set j .finished }
    else
      some { s with items_produced := s.items_produced + 1,
                    bakers := s.bakers.set j (.prep s.items_produced) }
  | some (.prep bread_id) =>
    some { s with bakers := s.bakers.set j (.putting bread_id) }
  | some (.putting bread_id) =>
    match s.basket.put bread_id with
    | .ok q => some { s with basket := q, bakers := s.bakers.set j .loopTop }
    | .error _ => some { s with bakers := s.bakers.set j .loopTop }
  | some .finished => none

/-- Next atomic action of customer thread `j` (`BakerySimulation.customer`):
the loop guard reads the stop event and the basket's emptiness (`while not
stop_event.is_set() or not basket.empty()`); `basket.get(timeout=2)` either
delivers the head item or raises `queue.Empty`, upon which the customer
leaves if the stop event is set and otherwise retries; after eating, the
lock-protected `items_consumed += 1` and `task_done()` close the iteration. -/
def BakerySimulation.customerStep (s : BakerySimulation) (j : Nat) : Option BakerySimulation :=
  match s.customers.get? j with
  | none => none
  | some .loopTop =>
    if !s.stop_event || !s.basket.items.isEmpty then
      some { s with customers := s.customers.set j .getting }
    else some { s with customers := s.customers.set j .finished }
  | some .getting =>
    match s.basket.get with
    | .ok (y, q) => some { s with basket := q, customers := s.customers.set j (.eating y) }
    | .error _ =>
      if s.stop_event then some { s with customers := s.customers.set j .finished }
      else some { s with customers := s.customers.set j .loopTop }
  | some (.eating _) =>
    some { s with items_consumed := s.items_consumed + 1,
                  customers := s.customers.set j .loopTop }
  | some .finished => none

/-- Scheduler view of the whole simulation: thread indices `0..nb-1` are the
baker threads, indices from `nb` onward are the customer threads. -/
def BakerySimulation.stepOf (s : BakerySimulation) (k : Nat) : Option BakerySimulation :=
  if k < s.bakers.length then s.bakerStep k else s.customerStep (k - s.bakers.length)

end Part2

/-! ### Part 3 — `part3_dining_philosophers.py` -/

namespace Part3

/-- The left fork of philosopher `philosopher_id` (`left_fork_id` in
`DiningPhilosophers.philosopher`). -/
def left_fork_id (philosopher_id : Nat) : Nat := philosopher_id

/-- The right fork of philosopher `philosopher_id` among `n` philosophers
(`right_fork_id = (philosopher_id + 1) % num_philosophers`). -/
def right_fork_id (n philosopher_id : Nat) : Nat := (philosopher_id + 1) % n

/-- The fork picked up first: the lower-numbered of the two
(`first_fork_id = min(left_fork_id, right_fork_id)`). -/
def first_fork_id (n philosopher_id : Nat) : Nat :=
  min (left_fork_id philosopher_id) (right_fork_id n philosopher_id)

/-- The fork picked up second: the higher-numbered of the two
(`second_fork_id = max(left_fork_id, right_fork_id)`). -/
def second_fork_id (n philosopher_id : Nat) : Nat :=
  max (left_fork_id philosopher_id) (right_fork_id n philosopher_id)

/-- Program counter of one philosopher thread inside its meal loop, split at
the lock operations: thinking at the loop head, holding only the first fork,
holding both forks (eating), having released the second fork only. -/
inductive PhilPC
  | thinking
  | hasFirst
  | hasBoth
  | releasedSecond
deriving Repr, DecidableEq

/-- One philosopher thread: completed meals and current position. -/
structure Phil where
  meals : Nat
  pc : PhilPC
deriving Repr, DecidableEq

/-- Global state of `DiningPhilosophers`: the configured
`meals_per_philosopher` and one entry per philosopher; the number of
philosophers (and forks) is the length of `phils`.  The `threading.Lock`
fork array is represented by the derived predicate `forkTaken`: fork `f` is
held exactly when some philosopher's position says so. -/
structure DiningPhilosophers where
  meals_per_philosopher : Nat
  phils : List Phil
deriving Repr, DecidableEq

/-- Which forks philosopher `i` (out of `n`) holds at position `p`: after the
first `acquire()` the first fork, while eating both, after releasing the
second fork only the first again. -/
def Phil.holdsFork (n i : Nat) (p : Phil) (f : Nat) : Bool :=
  match p.pc with
  | .thinking => false
  | .hasFirst => f == first_fork_id n i
  | .hasBoth => f == first_fork_id n i || f == second_fork_id n i
  | .releasedSecond => f == first_fork_id n i

/-- Fork `f` is currently held by some philosopher (the fork's
`threading.Lock` is in the acquired state). -/
def DiningPhilosophers.forkTaken (t : DiningPhilosophers) (f : Nat) : Bool :=
  (List.range t.phils.length).any fun i =>
    match t.phils.get? i with
    | some p => p.holdsFork t.phils.length i f
    | none => false

/-- Next atomic action of philosopher `i` (`DiningPhilosophers.philosopher`)
whose current entry is `p`: with meals left, acquire the first
(lower-numbered) fork — blocking while it is held; then acquire the second
fork likewise; eat; release the second fork; release the first fork,
completing the meal.  A philosopher whose meal loop is exhausted has left the
table. -/
def DiningPhilosophers.philStep (t : DiningPhilosophers) (i : Nat) (p : Phil) :
    Option DiningPhilosophers :=
  match p.pc with
  | .thinking =>
    if p.meals < t.meals_per_philosopher then
      if t.forkTaken (first_fork_id t.phils.length i) then none
      else some { t with phils := t.phils.set i { p with pc := .hasFirst } }
    else none
  | .hasFirst =>
    if t.forkTaken (second_fork_id t.phils.length i) then none
    else some { t with phils := t.phils.set i { p with pc := .hasBoth } }
  | .hasBoth =>
    some { t with phils := t.phils.set i { p with pc := .releasedSecond } }
  | .releasedSecond =>
    some { t with phils := t.phils.set i { p with meals := p.meals + 1, pc := .thinking } }

/-- Scheduler view of the table: thread `i` is philosopher `i`; a philosopher
that is blocked on a held fork, done with all meals, or beyond the table has
no action. -/
def DiningPhilosophers.stepOf (t : DiningPhilosophers) (i : Nat) : Option DiningPhilosophers :=
  match t.phils.get? i with
  | none => none
  | some p => t.philStep i p

/-- Constructor `DiningPhilosophers.__init__(num_philosophers, meals_per_philosopher)`
with every philosopher thread started and thinking. -/
def DiningPhilosophers.init (num_philosophers meals_per_philosopher : Nat) : DiningPhilosophers :=
  { meals_per_philosopher := meals_per_philosopher
    phils := List.replicate num_philosophers ⟨0, .thinking⟩ }

/-- Some philosopher thread is runnable (not blocked on a fork, not done). -/
def DiningPhilosophers.hasRunnable (t : DiningPhilosophers) : Bool :=
  (List.range t.phils.length).any fun i => (t.stepOf i).isSome

/-- Progress still owed to philosopher `p` under a quota of `K` meals, in
atomic actions: four actions per remaining meal, minus those of the current
meal already performed. -/
def Phil.philMeasure (K : Nat) (p : Phil) : Nat :=
  4 * (K - p.meals) -
    match p.pc with
    | .thinking => 0
    | .hasFirst => 1
    | .hasBoth => 2
    | .releasedSecond => 3

/-- Total number of atomic actions the table can still perform; it shrinks at
every step, so every execution is finite. -/
def DiningPhilosophers.measure (t : DiningPhilosophers) : Nat :=
  (t.phils.map (Phil.philMeasure t.meals_per_philosopher)).sum

/-- Inductive invariant of the dining table with `n` philosophers and quota
`K`: the configuration is unchanged, nobody has eaten beyond the quota, and a
philosopher inside its acquire-eat-release sequence still owes its current
meal. -/
def PhilInv (n K : Nat) (t : DiningPhilosophers) : Prop :=
  t.phils.length = n ∧ t.meals_per_philosopher = K ∧
  ∀ p ∈ t.phils, p.meals ≤ K ∧ (p.pc ≠ .thinking → p.meals < K)

end Part3

/-! ### Part 4 — `part4_thread_pool.py` -/

namespace Part4

/-- What one submitted future reports when `future.result()` is called in the
collection loop of `TaskProcessor.parallel_execution`: the task's return
value, or the exception the task raised inside its worker. -/
inductive TaskOutcome (ε ρ : Type)
  | success (r : ρ)
  | raised (e : ε)
deriving Repr, DecidableEq

/-- The result-collection loop of `TaskProcessor.parallel_execution`, fed the
futures in completion order (`concurrent.futures.as_completed`): each future
is processed exactly once; `results.append(result)` on success, while an
exception is caught by the `try/except` around `future.result()`, printed,
and not recorded; the loop then continues with the remaining futures. -/
def collectResults {ε ρ : Type} : List (TaskOutcome ε ρ) → List ρ
  | [] => []
  | .success r :: rest => r :: collectResults rest
  | .raised _ :: rest => collectResults rest

end Part4

/-! ### Helper lemmas -/

theorem runSched_reachable {σ : Type} (stepOf : σ → Nat → Option σ) :
    ∀ (sched : List Nat) (s s2 : σ), runSched stepOf s sched = some s2 →
      Reachable stepOf s s2 := by
  intro sched
  induction sched with
  | nil =>
    intro s s2 h
    unfold runSched at h
    cases h
    exact Relation.ReflTransGen.refl
  | cons i rest ih =>
    intro s s2 h
    unfold runSched at h
    cases hstep : stepOf s i with
    | none => rw [hstep] at h; cases h
    | some s1 =>
      rw [hstep] at h
      exact Relation.ReflTransGen.head ⟨i, hstep⟩ (ih s1 s2 h)

theorem get?_lt {α : Type} {l : List α} {i : Nat} {t : α} (h : l.get? i = some t) :
    i < l.length := by
  by_contra h2
  rw [List.get?_eq_getElem?, List.getElem?_eq_none (by omega)] at h
  cases h

theorem get?_set_self {α : Type} (l : List α) (i : Nat) (a : α) (h : i < l.length) :
    (l.set i a).get? i = some a := by
  simp [List.get?_eq_getElem?, List.getElem?_set, h]

theorem get?_set_ne {α : Type} (l : List α) (i j : Nat) (a : α) (h : i ≠ j) :
    (l.set i a).get? j = l.get? j := by
  simp [List.get?_eq_getElem?, List.getElem?_set, h]

theorem get?_map_eq {α β : Type} (f : α → β) (l : List α) (i : Nat) (a : α)
    (h : l.get? i = some a) : (l.map f).get? i = some (f a) := by
  rw [List.get?_eq_getElem?] at h ⊢
  rw [List.getElem?_map, h]
  rfl

theorem sum_set_nat :
    ∀ (l : List Nat) (i : Nat) (a b : Nat), l.get? i = some b →
      (l.set i a).sum + b = l.sum + a := by
  intro l
  induction l with
  | nil => intro i a b h; cases h
  | cons hd tl ih =>
    intro i a b h
    cases i with
    | zero =>
      cases h
      simp only [List.set, List.sum_cons]
      omega
    | succ n =>
      have h2 := ih n a b h
      simp only [List.set, List.sum_cons]
      omega

/-! ### Part 1 — sequential safety of `increment` -/

namespace Part1

/-- C9: `Counter.increment` never fails: `Counter.__init__` always leaves the
lock object present exactly when `use_lock` is set, and on every such counter
state — for both `use_lock` settings, including `use_lock = False` where no
lock object exists — `increment()` returns normally (no exception, no error
branch) and performs the read-add-write of `_increment_logic`. -/
theorem counter_increment_total :
    (∀ use_lock : Bool, (Counter.init use_lock).WF) ∧
    ∀ c : Counter, c.WF →
      c.increment = .ok c._increment_logic ∧ c._increment_logic.value = c.value + 1 := by
  constructor
  · intro use_lock
    cases use_lock <;> simp [Counter.init, Counter.WF]
  · intro c hwf
    refine ⟨?_, rfl⟩
    unfold Counter.increment
    unfold Counter.WF at hwf
    cases hu : c.use_lock with
    | false => simp
    | true =>
      rw [hu] at hwf
      cases hl : c.lock with
      | none => rw [hl] at hwf; cases hwf
      | some u => simp [hl]

/-- Witness for C9 at a concrete input: a counter built with `use_lock=True`
increments without error. -/
theorem counter_increment_total_witness :
    (Counter.init true).increment = .ok (Counter.init true)._increment_logic :=
  (counter_increment_total.2 (Counter.init true) (by decide)).1

end Part1

/-! ### Part 2 — channel-level properties -/

namespace Part2

theorem put_cases {α : Type} (q : PyQueue α) (x : α) :
    q.put x = .error .Full ∨ q.put x = .ok ⟨q.maxsize, q.items ++ [x]⟩ := by
  unfold PyQueue.put
  split
  · exact Or.inl rfl
  · exact Or.inr rfl

theorem get_cases {α : Type} (q : PyQueue α) :
    q.get = .error .Empty ∨ ∃ y rest, q.items = y :: rest ∧ q.get = .ok (y, ⟨q.maxsize, rest⟩) := by
  unfold PyQueue.get
  cases hit : q.items with
  | nil => exact Or.inl rfl
  | cons y rest => exact Or.inr ⟨y, rest, rfl, rfl⟩

theorem put_ok_not_full {α : Type} (q : PyQueue α) (x : α) (q2 : PyQueue α)
    (h : q.put x = .ok q2) :
    ¬(0 < q.maxsize ∧ q.maxsize ≤ q.items.length) ∧ q2 = ⟨q.maxsize, q.items ++ [x]⟩ := by
  unfold PyQueue.put at h
  split at h
  · cases h
  · rename_i hc
    cases h
    exact ⟨hc, rfl⟩

theorem get_ok_shape {α : Type} (q : PyQueue α) (y : α) (q2 : PyQueue α)
    (h : q.get = .ok (y, q2)) :
    q.items = y :: q2.items ∧ q2.maxsize = q.maxsize := by
  unfold PyQueue.get at h
  cases hit : q.items with
  | nil => rw [hit] at h; cases h
  | cons z zs =>
    rw [hit] at h
    cases h
    exact ⟨rfl, rfl⟩

theorem applyOp_inv {C : Nat} (hC : 0 < C) (q : PyQueue Nat) (op : ChanOp Nat)
    (hm : q.maxsize = C) (hl : q.items.length ≤ C) :
    (applyOp q op).maxsize = C ∧ (applyOp q op).items.length ≤ C := by
  cases op with
  | put x =>
    cases hput : q.put x with
    | error e => simp only [applyOp, hput]; exact ⟨hm, hl⟩
    | ok q2 =>
      obtain ⟨hnf, rfl⟩ := put_ok_not_full q x q2 hput
      simp only [applyOp, hput]
      refine ⟨hm, ?_⟩
      simp only [List.length_append, List.length_cons, List.length_nil]
      rw [hm] at hnf
      push_neg at hnf
      have := hnf hC
      omega
  | get =>
    cases hget : q.get with
    | error e => simp only [applyOp, hget]; exact ⟨hm, hl⟩
    | ok p =>
      obtain ⟨y, q2⟩ := p
      obtain ⟨hit, hmq⟩ := get_ok_shape q y q2 hget
      simp only [applyOp, hget]
      refine ⟨hmq.trans hm, ?_⟩
      rw [hit] at hl
      simp only [List.length_cons] at hl
      omega

theorem applyOps_inv {C : Nat} (hC : 0 < C) :
    ∀ (ops : List (ChanOp Nat)) (q : PyQueue Nat), q.maxsize = C → q.items.length ≤ C →
      (applyOps q ops).maxsize = C ∧ (applyOps q ops).items.length ≤ C := by
  intro ops
  induction ops with
  | nil => intro q hm hl; exact ⟨hm, hl⟩
  | cons op rest ih =>
    intro q hm hl
    have hstep := applyOp_inv hC q op hm hl
    exact ih (applyOp q op) hstep.1 hstep.2

/-- C3: on a channel created with positive capacity `C` and an empty buffer,
any sequence of put and get operations keeps the occupancy within `0..C`:
the length of `items` never exceeds the capacity (and, being a count of a
list, can never go negative). -/
theorem channel_occupancy_bounded (C : Nat) (hC : 0 < C) (ops : List (ChanOp Nat)) :
    (applyOps ⟨C, []⟩ ops).items.length ≤ C ∧ 0 ≤ (applyOps ⟨C, []⟩ ops).items.length :=
  ⟨(applyOps_inv hC ops ⟨C, []⟩ rfl (by simp)).2, Nat.zero_le _⟩

/-- Witness for C3 at a concrete input: capacity 1 and a burst of puts. -/
theorem channel_occupancy_bounded_witness :
    (applyOps ⟨1, []⟩ [ChanOp.put 3, ChanOp.put 4, ChanOp.put 5]).items.length ≤ 1 ∧
    0 ≤ (applyOps ⟨1, []⟩ [ChanOp.put 3, ChanOp.put 4, ChanOp.put 5]).items.length :=
  channel_occupancy_bounded 1 (by decide) [ChanOp.put 3, ChanOp.put 4, ChanOp.put 5]

theorem runOps_fifo {α : Type} :
    ∀ (ops : List (ChanOp α)) (q : PyQueue α),
      (runOps q ops).gets ++ (runOps q ops).final.items = q.items ++ (runOps q ops).puts := by
  intro ops
  induction ops with
  | nil => intro q; simp [runOps]
  | cons op rest ih =>
    intro q
    cases op with
    | put x =>
      show (runOps q (.put x :: rest)).gets ++ _ = _
      unfold runOps
      cases hput : q.put x with
      | ok q2 =>
        have hq2 : q2.items = q.items ++ [x] := by
          unfold PyQueue.put at hput
          split at hput
          · cases hput
          · cases hput; rfl
        simp only []
        have := ih q2
        rw [this, hq2]
        simp
      | error e => simpa using ih q
    | get =>
      show (runOps q (.get :: rest)).gets ++ _ = _
      unfold runOps
      cases hget : q.get with
      | ok p =>
        obtain ⟨y, q2⟩ := p
        have hq2 : q.items = y :: q2.items := by
          unfold PyQueue.get at hget
          cases hit : q.items with
          | nil => rw [hit] at hget; cases hget
          | cons z zs => rw [hit] at hget; cases hget; rfl
        simp only []
        have := ih q2
        rw [hq2]
        simp only [List.cons_append]
        rw [this]
      | error e => simpa using ih q

/-- C4: the channel is FIFO under every interleaving of puts and gets: a
successful put appends its item at the tail, a successful get removes and
returns the head, and over any operation sequence the items delivered by
gets, in delivery order, are exactly the global arrival order of the items
put (the delivered list extended by the residue equals the put list). -/
theorem channel_fifo (C : Nat) (ops : List (ChanOp Nat)) :
    (runOps ⟨C, []⟩ ops).gets ++ (runOps ⟨C, []⟩ ops).final.items = (runOps ⟨C, []⟩ ops).puts ∧
    (∀ (q : PyQueue Nat) (x : Nat),
      q.put x = .error .Full ∨ q.put x = .ok ⟨q.maxsize, q.items ++ [x]⟩) ∧
    (∀ q : PyQueue Nat,
      q.get = .error .Empty ∨ ∃ y rest, q.items = y :: rest ∧ q.get = .ok (y, ⟨q.maxsize, rest⟩)) :=
  ⟨by simpa using runOps_fifo ops ⟨C, []⟩, fun q x => put_cases q x, fun q => get_cases q⟩

/-- C7: a blocking put whose timeout elapses with the buffer still at
capacity fails with the typed error `Full`, and exactly then; a blocking get
whose timeout elapses with the buffer still empty fails with the typed error
`Empty`, and exactly then; both operations always return either a success or
that typed failure to their immediate caller — no other outcome exists, so
no timeout is silently swallowed. -/
theorem channel_timeout_errors :
    (∀ (q : PyQueue Nat) (x : Nat), 0 < q.maxsize → q.items.length ≤ q.maxsize →
      (q.put x = .error .Full ↔ q.items.length = q.maxsize)) ∧
    (∀ q : PyQueue Nat, q.get = .error .Empty ↔ q.items = []) ∧
    (∀ (q : PyQueue Nat) (x : Nat),
      q.put x = .error .Full ∨ q.put x = .ok ⟨q.maxsize, q.items ++ [x]⟩) ∧
    (∀ q : PyQueue Nat,
      q.get = .error .Empty ∨ ∃ y rest, q.items = y :: rest ∧ q.get = .ok (y, ⟨q.maxsize, rest⟩)) := by
  refine ⟨?_, ?_, fun q x => put_cases q x, fun q => get_cases q⟩
  · intro q x hpos hle
    unfold PyQueue.put
    constructor
    · intro h
      split at h
      · rename_i hfull; omega
      · cases h
    · intro h
      rw [if_pos ⟨hpos, by omega⟩]
  · intro q
    unfold PyQueue.get
    cases hit : q.items with
    | nil => simp
    | cons y rest => simp

/-- Witness for C7 at a concrete input: a full one-slot channel rejects a put
with `Full`, via the characterization applied at capacity 1. -/
theorem channel_timeout_errors_witness :
    PyQueue.put (⟨1, [7]⟩ : PyQueue Nat) 9 = .error .Full :=
  (channel_timeout_errors.1 ⟨1, [7]⟩ 9 (by decide) (by decide)).mpr rfl

end Part2

/-! ### Part 4 — result collection of `parallel_execution` -/

namespace Part4

/-- C6 counterexample: `parallel_execution` does not record an outcome for
every submitted work unit — a single submitted unit that raises yields an
empty result collection, so the raising unit has no recorded `Outcome` at
all (its exception is only printed), refuting the claimed
outcome-per-unit mapping. -/
theorem collectResults_missing_outcome :
    collectResults ([TaskOutcome.raised 7] : List (TaskOutcome Nat Nat)) = [] ∧
    ([TaskOutcome.raised 7] : List (TaskOutcome Nat Nat)).length = 1 ∧
    (collectResults ([TaskOutcome.raised 7] : List (TaskOutcome Nat Nat))).length ≠ 1 := by
  exact ⟨rfl, rfl, by decide⟩

/-- C6 amended: the collection loop of `parallel_execution` processes every
submitted future exactly once and completes; a unit that raises is caught at
the worker-result boundary, contributes no recorded result, and does not
abort sibling units or the pool — the units before and after it are
collected exactly as they would be without it, while each successful unit
contributes its result exactly once, in completion order. -/
theorem collectResults_failure_isolation :
    ∀ (xs ys : List (TaskOutcome Nat Nat)) (e r : Nat),
      collectResults (xs ++ .raised e :: ys) = collectResults xs ++ collectResults ys ∧
      collectResults (xs ++ .success r :: ys) =
        collectResults xs ++ r :: collectResults ys := by
  intro xs
  induction xs with
  | nil => intro ys e r; exact ⟨rfl, rfl⟩
  | cons a xs ih =>
    intro ys e r
    obtain ⟨ih1, ih2⟩ := ih ys e r
    cases a <;> simp [collectResults, ih1, ih2]

end Part4

/-! ### Part 3 — fork ordering -/

namespace Part3

theorem left_ne_right (n i : Nat) (hn : 2 ≤ n) (hi : i < n) :
    left_fork_id i ≠ right_fork_id n i := by
  unfold left_fork_id right_fork_id
  intro h
  rcases Nat.lt_or_ge (i + 1) n with h1 | h1
  · rw [Nat.mod_eq_of_lt h1] at h
    omega
  · have h2 : i + 1 = n := by omega
    rw [h2, Nat.mod_self] at h
    omega

theorem first_fork_lt_second_fork (n i : Nat) (hn : 2 ≤ n) (hi : i < n) :
    first_fork_id n i < second_fork_id n i :=
  min_lt_max.mpr (left_ne_right n i hn hi)

/-- C8: each philosopher acquires its two forks in strictly ascending index
order: the fork acquired first is the lower-numbered (`min`) of its left fork
`i` and right fork `(i+1) mod N`, the fork acquired second is the
higher-numbered (`max`), the first is strictly below the second, and no
philosopher position ever holds the higher fork without holding the lower
one. -/
theorem philosopher_fork_order (n i : Nat) (hn : 2 ≤ n) (hi : i < n) :
    first_fork_id n i = min (left_fork_id i) (right_fork_id n i) ∧
    second_fork_id n i = max (left_fork_id i) (right_fork_id n i) ∧
    first_fork_id n i < second_fork_id n i ∧
    ∀ p : Phil, p.holdsFork n i (second_fork_id n i) = true →
      p.holdsFork n i (first_fork_id n i) = true := by
  have hlt := first_fork_lt_second_fork n i hn hi
  refine ⟨rfl, rfl, hlt, ?_⟩
  intro p hp
  cases hpc : p.pc <;> simp only [Phil.holdsFork, hpc] at hp ⊢
  · cases hp
  · rw [beq_iff_eq] at hp
    omega
  · simp
  · rw [beq_iff_eq] at hp
    omega

/-- Witness for C8 at a concrete input: philosopher 2 of 3 (left fork 2,
right fork 0) picks up fork 0 before fork 2. -/
theorem philosopher_fork_order_witness : first_fork_id 3 2 < second_fork_id 3 2 :=
  (philosopher_fork_order 3 2 (by decide) (by decide)).2.2.1

theorem phil_inv_init (n K : Nat) : PhilInv n K (DiningPhilosophers.init n K) := by
  refine ⟨?_, rfl, ?_⟩
  · show (List.replicate n (⟨0, .thinking⟩ : Phil)).length = n
    simp
  · intro p hp
    have h2 := List.eq_of_mem_replicate hp
    subst h2
    exact ⟨Nat.zero_le _, fun hc => absurd rfl hc⟩

theorem phil_step_inv (n K : Nat) (t t2 : DiningPhilosophers)
    (h : StepRel DiningPhilosophers.stepOf t t2) (hinv : PhilInv n K t) : PhilInv n K t2 := by
  obtain ⟨hlen, hK, hmem⟩ := hinv
  obtain ⟨i, hk⟩ := h
  unfold DiningPhilosophers.stepOf at hk
  split at hk
  · cases hk
  · rename_i p ht
    have hpm := List.get?_mem ht
    unfold DiningPhilosophers.philStep at hk
    split at hk
    · -- thinking: tries to pick up the first fork
      rename_i hpc
      split at hk
      · rename_i hlt
        split at hk
        · cases hk
        · cases hk
          refine ⟨by simpa using hlen, hK, ?_⟩
          intro q hq
          rcases List.mem_or_eq_of_mem_set hq with hq2 | rfl
          · exact hmem q hq2
          · rw [hK] at hlt
            refine ⟨?_, fun _ => hlt⟩
            show p.meals ≤ K
            omega
      · cases hk
    · -- hasFirst: tries to pick up the second fork
      rename_i hpc
      split at hk
      · cases hk
      · cases hk
        refine ⟨by simpa using hlen, hK, ?_⟩
        intro q hq
        rcases List.mem_or_eq_of_mem_set hq with hq2 | rfl
        · exact hmem q hq2
        · have h3 := (hmem p hpm).2 (by rw [hpc]; simp)
          refine ⟨?_, fun _ => h3⟩
          show p.meals ≤ K
          omega
    · -- hasBoth: puts down the second fork
      rename_i hpc
      cases hk
      refine ⟨by simpa using hlen, hK, ?_⟩
      intro q hq
      rcases List.mem_or_eq_of_mem_set hq with hq2 | rfl
      · exact hmem q hq2
      · have h3 := (hmem p hpm).2 (by rw [hpc]; simp)
        refine ⟨?_, fun _ => h3⟩
        show p.meals ≤ K
        omega
    · -- releasedSecond: puts down the first fork, meal complete
      rename_i hpc
      cases hk
      refine ⟨by simpa using hlen, hK, ?_⟩
      intro q hq
      rcases List.mem_or_eq_of_mem_set hq with hq2 | rfl
      · exact hmem q hq2
      · have h3 := (hmem p hpm).2 (by rw [hpc]; simp)
        refine ⟨?_, fun hc => absurd rfl hc⟩
        show p.meals + 1 ≤ K
        omega

theorem phil_step_measure (n K : Nat) (t t2 : DiningPhilosophers)
    (hinv : PhilInv n K t) (h : StepRel DiningPhilosophers.stepOf t t2) :
    t2.measure < t.measure := by
  obtain ⟨hlen, hK, hmem⟩ := hinv
  obtain ⟨i, hk⟩ := h
  unfold DiningPhilosophers.stepOf at hk
  split at hk
  · cases hk
  · rename_i p ht
    have hpm := List.get?_mem ht
    unfold DiningPhilosophers.philStep at hk
    split at hk
    · rename_i hpc
      split at hk
      · rename_i hlt
        split at hk
        · cases hk
        · cases hk
          show ((t.phils.set i { p with pc := .hasFirst }).map
            (Phil.philMeasure t.meals_per_philosopher)).sum <
              (t.phils.map (Phil.philMeasure t.meals_per_philosopher)).sum
          rw [List.map_set]
          have q1 := sum_set_nat (t.phils.map (Phil.philMeasure t.meals_per_philosopher)) i
            (Phil.philMeasure t.meals_per_philosopher { p with pc := .hasFirst })
            (Phil.philMeasure t.meals_per_philosopher p) (get?_map_eq _ _ _ _ ht)
          have e1 : Phil.philMeasure t.meals_per_philosopher { p with pc := .hasFirst } =
            4 * (t.meals_per_philosopher - p.meals) - 1 := rfl
          have e2 : Phil.philMeasure t.meals_per_philosopher p =
            4 * (t.meals_per_philosopher - p.meals) - 0 := by
            simp [Phil.philMeasure, hpc]
          omega
      · cases hk
    · rename_i hpc
      split at hk
      · cases hk
      · cases hk
        have h3 := (hmem p hpm).2 (by rw [hpc]; simp)
        rw [← hK] at h3
        show ((t.phils.set i { p with pc := .hasBoth }).map
          (Phil.philMeasure t.meals_per_philosopher)).sum <
            (t.phils.map (Phil.philMeasure t.meals_per_philosopher)).sum
        rw [List.map_set]
        have q1 := sum_set_nat (t.phils.map (Phil.philMeasure t.meals_per_philosopher)) i
          (Phil.philMeasure t.meals_per_philosopher { p with pc := .hasBoth })
          (Phil.philMeasure t.meals_per_philosopher p) (get?_map_eq _ _ _ _ ht)
        have e1 : Phil.philMeasure t.meals_per_philosopher { p with pc := .hasBoth } =
          4 * (t.meals_per_philosopher - p.meals) - 2 := rfl
        have e2 : Phil.philMeasure t.meals_per_philosopher p =
          4 * (t.meals_per_philosopher - p.meals) - 1 := by
          simp [Phil.philMeasure, hpc]
        omega
    · rename_i hpc
      cases hk
      have h3 := (hmem p hpm).2 (by rw [hpc]; simp)
      rw [← hK] at h3
      show ((t.phils.set i { p with pc := .releasedSecond }).map
        (Phil.philMeasure t.meals_per_philosopher)).sum <
          (t.phils.map (Phil.philMeasure t.meals_per_philosopher)).sum
      rw [List.map_set]
      have q1 := sum_set_nat (t.phils.map (Phil.philMeasure t.meals_per_philosopher)) i
        (Phil.philMeasure t.meals_per_philosopher { p with pc := .releasedSecond })
        (Phil.philMeasure t.meals_per_philosopher p) (get?_map_eq _ _ _ _ ht)
      have e1 : Phil.philMeasure t.meals_per_philosopher { p with pc := .releasedSecond } =
        4 * (t.meals_per_philosopher - p.meals) - 3 := rfl
      have e2 : Phil.philMeasure t.meals_per_philosopher p =
        4 * (t.meals_per_philosopher - p.meals) - 2 := by
        simp [Phil.philMeasure, hpc]
      omega
    · rename_i hpc
      cases hk
      have h3 := (hmem p hpm).2 (by rw [hpc]; simp)
      rw [← hK] at h3
      show ((t.phils.set i { p with meals := p.meals + 1, pc := .thinking }).map
        (Phil.philMeasure t.meals_per_philosopher)).sum <
          (t.phils.map (Phil.philMeasure t.meals_per_philosopher)).sum
      rw [List.map_set]
      have q1 := sum_set_nat (t.phils.map (Phil.philMeasure t.meals_per_philosopher)) i
        (Phil.philMeasure t.meals_per_philosopher { p with meals := p.meals + 1, pc := .thinking })
        (Phil.philMeasure t.meals_per_philosopher p) (get?_map_eq _ _ _ _ ht)
      have e1 : Phil.philMeasure t.meals_per_philosopher
          { p with meals := p.meals + 1, pc := .thinking } =
        4 * (t.meals_per_philosopher - (p.meals + 1)) - 0 := rfl
      have e2 : Phil.philMeasure t.meals_per_philosopher p =
        4 * (t.meals_per_philosopher - p.meals) - 3 := by
        simp [Phil.philMeasure, hpc]
      omega

theorem phil_stuck_done (n K : Nat) (hn : 2 ≤ n) (t : DiningPhilosophers)
    (hinv : PhilInv n K t)
    (hstuck : ∀ i, i < t.phils.length → t.stepOf i = none) :
    ∀ p ∈ t.phils, p.meals = K ∧ p.pc = .thinking := by
  obtain ⟨hlen, hK, hmem⟩ := hinv
  have hn2 : 2 ≤ t.phils.length := by omega
  have hps : ∀ i p, t.phils.get? i = some p → t.philStep i p = none := by
    intro i p ht
    have h0 := hstuck i (get?_lt ht)
    unfold DiningPhilosophers.stepOf at h0
    rw [ht] at h0
    exact h0
  have ha : ∀ i p, t.phils.get? i = some p → p.pc = .thinking ∨ p.pc = .hasFirst := by
    intro i p ht
    have h1 := hps i p ht
    unfold DiningPhilosophers.philStep at h1
    cases hpc : p.pc with
    | thinking => exact Or.inl rfl
    | hasFirst => exact Or.inr rfl
    | hasBoth => rw [hpc] at h1; cases h1
    | releasedSecond => rw [hpc] at h1; cases h1
  have hb : ∀ i p, t.phils.get? i = some p → p.pc = .hasFirst →
      t.forkTaken (second_fork_id t.phils.length i) = true := by
    intro i p ht hpc
    have h1 := hps i p ht
    unfold DiningPhilosophers.philStep at h1
    rw [hpc] at h1
    cases hf : t.forkTaken (second_fork_id t.phils.length i) with
    | true => rfl
    | false => rw [hf] at h1; simp at h1
  have hc : ∀ i p, t.phils.get? i = some p → p.pc = .thinking → p.meals < K →
      t.forkTaken (first_fork_id t.phils.length i) = true := by
    intro i p ht hpc hm
    have h1 := hps i p ht
    unfold DiningPhilosophers.philStep at h1
    rw [hpc] at h1
    have hmlt : p.meals < t.meals_per_philosopher := by omega
    rw [if_pos hmlt] at h1
    cases hf : t.forkTaken (first_fork_id t.phils.length i) with
    | true => rfl
    | false => rw [hf] at h1; simp at h1
  have hd : ∀ f, t.forkTaken f = true →
      ∃ j q, t.phils.get? j = some q ∧ q.holdsFork t.phils.length j f = true := by
    intro f hf
    unfold DiningPhilosophers.forkTaken at hf
    rw [List.any_eq_true] at hf
    obtain ⟨j, hj, hP⟩ := hf
    cases hq : t.phils.get? j with
    | none => rw [hq] at hP; cases hP
    | some q => rw [hq] at hP; exact ⟨j, q, hq, hP⟩
  have he : ∀ (j : Nat) (q : Phil) (f : Nat), q.pc = .hasFirst →
      q.holdsFork t.phils.length j f = true → f = first_fork_id t.phils.length j := by
    intro j q f hpc hhold
    unfold Phil.holdsFork at hhold
    rw [hpc] at hhold
    exact beq_iff_eq.mp hhold
  have hf2 : ∀ (j : Nat) (q : Phil) (f : Nat), q.pc = .thinking →
      q.holdsFork t.phils.length j f = true → False := by
    intro j q f hpc hhold
    unfold Phil.holdsFork at hhold
    rw [hpc] at hhold
    cases hhold
  have hfirstle : ∀ j : Nat, first_fork_id t.phils.length j ≤ j := fun j => min_le_left _ _
  have key : ∀ (c : Nat) (j : Nat) (q : Phil), t.phils.get? j = some q → q.pc = .hasFirst →
      first_fork_id t.phils.length j + c < t.phils.length := by
    intro c
    induction c with
    | zero =>
      intro j q hj hq
      have h4 := hfirstle j
      have h5 := get?_lt hj
      omega
    | succ c ih =>
      intro j q hj hq
      have hf := hb j q hj hq
      obtain ⟨j2, q2, hj2, hold2⟩ := hd _ hf
      rcases ha j2 q2 hj2 with hth | hhf
      · exact (hf2 j2 q2 _ hth hold2).elim
      · have heq2 := he j2 q2 _ hhf hold2
        have hlt2 := first_fork_lt_second_fork t.phils.length j hn2 (get?_lt hj)
        have h6 := ih j2 q2 hj2 hhf
        omega
  intro p hp
  obtain ⟨i, hi⟩ := List.mem_iff_get?.mp hp
  rcases ha i p hi with hth | hhf
  · refine ⟨?_, hth⟩
    by_contra hne
    have hm : p.meals < K := lt_of_le_of_ne (hmem p hp).1 hne
    have hf := hc i p hi hth hm
    obtain ⟨j2, q2, hj2, hold2⟩ := hd _ hf
    rcases ha j2 q2 hj2 with hth2 | hhf2
    · exact (hf2 j2 q2 _ hth2 hold2).elim
    · exact absurd (key t.phils.length j2 q2 hj2 hhf2) (by omega)
  · exact absurd (key t.phils.length i p hi hhf) (by omega)

/-- C2: for any table of `N >= 3` philosophers in a cycle (philosopher `i`
needs forks `i` and `(i+1) mod N`), each acquiring its two forks in ascending
index order, no reachable state deadlocks: every step strictly decreases the
remaining-work measure, so every execution is finite, and any reachable
state in which no philosopher can act is one where every philosopher has
completed all `K` configured meal cycles and holds no fork — a circular wait
can never arise. -/
theorem dining_no_deadlock (n K : Nat) (hn : 3 ≤ n) (t : DiningPhilosophers)
    (hreach : Reachable DiningPhilosophers.stepOf (DiningPhilosophers.init n K) t) :
    (∀ t2, StepRel DiningPhilosophers.stepOf t t2 → t2.measure < t.measure) ∧
    (t.hasRunnable = false → ∀ p ∈ t.phils, p.meals = K ∧ p.pc = .thinking) := by
  have hinv : PhilInv n K t := by
    clear hn
    induction hreach with
    | refl => exact phil_inv_init n K
    | tail hr hstep ih => exact phil_step_inv n K _ _ hstep ih
  constructor
  · intro t2 hstep
    exact phil_step_measure n K t t2 hinv hstep
  · intro hstuck
    apply phil_stuck_done n K (by omega) t hinv
    intro i hi
    unfold DiningPhilosophers.hasRunnable at hstuck
    rw [List.any_eq_false] at hstuck
    have h2 := hstuck i (List.mem_range.mpr hi)
    cases ho : t.stepOf i with
    | none => rfl
    | some t3 => rw [ho] at h2; simp at h2

/-- Witness for C2 at a concrete input: 3 philosophers, 1 meal each, run to
completion along an explicit schedule; the resulting stuck state has every
philosopher done, e.g. philosopher 0's final entry. -/
theorem dining_no_deadlock_witness :
    (Phil.mk 1 .thinking).meals = 1 ∧ (Phil.mk 1 .thinking).pc = PhilPC.thinking :=
  (dining_no_deadlock 3 1 (by decide)
      (DiningPhilosophers.mk 1 [⟨1, .thinking⟩, ⟨1, .thinking⟩, ⟨1, .thinking⟩])
      (runSched_reachable DiningPhilosophers.stepOf [0, 0, 0, 0, 1, 1, 1, 1, 2, 2, 2, 2]
        (DiningPhilosophers.init 3 1)
        (DiningPhilosophers.mk 1 [⟨1, .thinking⟩, ⟨1, .thinking⟩, ⟨1, .thinking⟩])
        (by decide))).2
    (by decide) (Phil.mk 1 .thinking) (by decide)

end Part3

/-! ### Part 1 — the guarded counter under concurrency -/

namespace Part1

theorem cinv_init (ks : List Nat) : CInv ks (CState.init ks) := by
  refine ⟨?_, ?_, ?_⟩
  · show (CState.init ks).value + (CState.init ks).remSum = ks.sum + (CState.init ks).wroteCount
    simp only [CState.init, CState.remSum, CState.wroteCount, List.map_map]
    have h1 : ∀ l : List Nat,
        (l.map (CThread.remaining ∘ fun k => (⟨k, .idle⟩ : CThread))).sum = l.sum ∧
        (l.map (CThread.wroteBit ∘ fun k => (⟨k, .idle⟩ : CThread))).sum = 0 := by
      intro l
      induction l with
      | nil => simp
      | cons hd tl ih =>
        simp only [List.map_cons, List.sum_cons, Function.comp]
        exact ⟨by rw [ih.1], by rw [ih.2]; rfl⟩
    rw [(h1 ks).1, (h1 ks).2]
    omega
  · intro i t hi hpc
    exfalso
    unfold CState.init at hi
    rw [List.get?_eq_getElem?, List.getElem?_map] at hi
    cases hks : ks[i]? with
    | none => rw [hks] at hi; cases hi
    | some k => rw [hks] at hi; cases hi; exact hpc rfl
  · intro i t v hi hpc
    unfold CState.init at hi
    rw [List.get?_eq_getElem?, List.getElem?_map] at hi
    cases hks : ks[i]? with
    | none => rw [hks] at hi; cases hi
    | some k => rw [hks] at hi; cases hi; cases hpc

theorem cstep_inv (ks : List Nat) (s s2 : CState)
    (h : StepRel CState.stepOf s s2) (hinv : CInv ks s) : CInv ks s2 := by
  obtain ⟨heqn, hlockinv, htempinv⟩ := hinv
  obtain ⟨i, hk⟩ := h
  unfold CState.stepOf at hk
  split at hk
  · cases hk
  · rename_i t ht
    split at hk
    · -- idle: acquire the lock
      rename_i hpc
      split at hk
      · cases hk
      · rename_i hrem
        split at hk
        · cases hk
        · rename_i hlock
          cases hk
          refine ⟨?_, ?_, ?_⟩
          · show s.value + (CState.mk s.value (some i) (s.threads.set i { t with pc := .locked })).remSum =
              ks.sum + (CState.mk s.value (some i) (s.threads.set i { t with pc := .locked })).wroteCount
            simp only [CState.remSum, CState.wroteCount] at heqn ⊢
            rw [List.map_set, List.map_set]
            have q1 := sum_set_nat (s.threads.map CThread.remaining) i
              (CThread.remaining { t with pc := .locked }) t.remaining (get?_map_eq _ _ _ _ ht)
            have q2 := sum_set_nat (s.threads.map CThread.wroteBit) i
              (CThread.wroteBit { t with pc := .locked }) t.wroteBit (get?_map_eq _ _ _ _ ht)
            have e1 : CThread.remaining { t with pc := .locked } = t.remaining := rfl
            have e2 : CThread.wroteBit { t with pc := .locked } = 0 := rfl
            have e3 : CThread.wroteBit t = 0 := by simp [CThread.wroteBit, hpc]
            omega
          · intro j u hj hpcu
            rcases eq_or_ne j i with rfl | hij
            · rw [get?_set_self _ _ _ (get?_lt ht)] at hj
              cases hj
              refine ⟨?_, rfl⟩
              show 1 ≤ t.remaining
              omega
            · rw [get?_set_ne _ _ _ _ hij.symm] at hj
              obtain ⟨-, h3⟩ := hlockinv j u hj hpcu
              rw [hlock] at h3
              cases h3
          · intro j u v hj hpcu
            rcases eq_or_ne j i with rfl | hij
            · rw [get?_set_self _ _ _ (get?_lt ht)] at hj
              cases hj
              cases hpcu
            · rw [get?_set_ne _ _ _ _ hij.symm] at hj
              obtain ⟨-, h3⟩ := hlockinv j u hj (by rw [hpcu]; simp)
              rw [hlock] at h3
              cases h3
    · -- locked: read value into temp
      rename_i hpc
      cases hk
      obtain ⟨hrem1, hholder⟩ := hlockinv i t ht (by rw [hpc]; simp)
      refine ⟨?_, ?_, ?_⟩
      · show s.value + (CState.mk s.value s.lockHolder
            (s.threads.set i { t with pc := .haveTemp s.value })).remSum =
          ks.sum + (CState.mk s.value s.lockHolder
            (s.threads.set i { t with pc := .haveTemp s.value })).wroteCount
        simp only [CState.remSum, CState.wroteCount] at heqn ⊢
        rw [List.map_set, List.map_set]
        have q1 := sum_set_nat (s.threads.map CThread.remaining) i
          (CThread.remaining { t with pc := .haveTemp s.value }) t.remaining (get?_map_eq _ _ _ _ ht)
        have q2 := sum_set_nat (s.threads.map CThread.wroteBit) i
          (CThread.wroteBit { t with pc := .haveTemp s.value }) t.wroteBit (get?_map_eq _ _ _ _ ht)
        have e1 : CThread.remaining { t with pc := .haveTemp s.value } = t.remaining := rfl
        have e2 : CThread.wroteBit { t with pc := .haveTemp s.value } = 0 := rfl
        have e3 : CThread.wroteBit t = 0 := by simp [CThread.wroteBit, hpc]
        omega
      · intro j u hj hpcu
        rcases eq_or_ne j i with rfl | hij
        · rw [get?_set_self _ _ _ (get?_lt ht)] at hj
          cases hj
          exact ⟨hrem1, hholder⟩
        · rw [get?_set_ne _ _ _ _ hij.symm] at hj
          exact hlockinv j u hj hpcu
      · intro j u v hj hpcu
        rcases eq_or_ne j i with rfl | hij
        · rw [get?_set_self _ _ _ (get?_lt ht)] at hj
          cases hj
          injection hpcu with h4
          exact h4.symm
        · rw [get?_set_ne _ _ _ _ hij.symm] at hj
          obtain ⟨-, h3⟩ := hlockinv j u hj (by rw [hpcu]; simp)
          rw [hholder] at h3
          injection h3 with h4
          exact absurd h4.symm hij
    · -- haveTemp: write temp + 1 back
      rename_i temp hpc
      cases hk
      have hv : temp = s.value := htempinv i t temp ht hpc
      obtain ⟨hrem1, hholder⟩ := hlockinv i t ht (by rw [hpc]; simp)
      refine ⟨?_, ?_, ?_⟩
      · show (temp + 1) + (CState.mk (temp + 1) s.lockHolder
            (s.threads.set i { t with pc := .wrote })).remSum =
          ks.sum + (CState.mk (temp + 1) s.lockHolder
            (s.threads.set i { t with pc := .wrote })).wroteCount
        simp only [CState.remSum, CState.wroteCount] at heqn ⊢
        rw [List.map_set, List.map_set]
        have q1 := sum_set_nat (s.threads.map CThread.remaining) i
          (CThread.remaining { t with pc := .wrote }) t.remaining (get?_map_eq _ _ _ _ ht)
        have q2 := sum_set_nat (s.threads.map CThread.wroteBit) i
          (CThread.wroteBit { t with pc := .wrote }) t.wroteBit (get?_map_eq _ _ _ _ ht)
        have e1 : CThread.remaining { t with pc := .wrote } = t.remaining := rfl
        have e2 : CThread.wroteBit { t with pc := .wrote } = 1 := rfl
        have e3 : CThread.wroteBit t = 0 := by simp [CThread.wroteBit, hpc]
        omega
      · intro j u hj hpcu
        rcases eq_or_ne j i with rfl | hij
        · rw [get?_set_self _ _ _ (get?_lt ht)] at hj
          cases hj
          exact ⟨hrem1, hholder⟩
        · rw [get?_set_ne _ _ _ _ hij.symm] at hj
          exact hlockinv j u hj hpcu
      · intro j u v hj hpcu
        rcases eq_or_ne j i with rfl | hij
        · rw [get?_set_self _ _ _ (get?_lt ht)] at hj
          cases hj
          cases hpcu
        · rw [get?_set_ne _ _ _ _ hij.symm] at hj
          obtain ⟨-, h3⟩ := hlockinv j u hj (by rw [hpcu]; simp)
          rw [hholder] at h3
          injection h3 with h4
          exact absurd h4.symm hij
    · -- wrote: release the lock, one call completed
      rename_i hpc
      cases hk
      obtain ⟨hrem1, hholder⟩ := hlockinv i t ht (by rw [hpc]; simp)
      refine ⟨?_, ?_, ?_⟩
      · show s.value + (CState.mk s.value none
            (s.threads.set i { t with remaining := t.remaining - 1, pc := .idle })).remSum =
          ks.sum + (CState.mk s.value none
            (s.threads.set i { t with remaining := t.remaining - 1, pc := .idle })).wroteCount
        simp only [CState.remSum, CState.wroteCount] at heqn ⊢
        rw [List.map_set, List.map_set]
        have q1 := sum_set_nat (s.threads.map CThread.remaining) i
          (CThread.remaining { t with remaining := t.remaining - 1, pc := .idle }) t.remaining
          (get?_map_eq _ _ _ _ ht)
        have q2 := sum_set_nat (s.threads.map CThread.wroteBit) i
          (CThread.wroteBit { t with remaining := t.remaining - 1, pc := .idle }) t.wroteBit
          (get?_map_eq _ _ _ _ ht)
        have e1 : CThread.remaining { t with remaining := t.remaining - 1, pc := .idle } =
          t.remaining - 1 := rfl
        have e2 : CThread.wroteBit { t with remaining := t.remaining - 1, pc := .idle } = 0 := rfl
        have e3 : CThread.wroteBit t = 1 := by simp [CThread.wroteBit, hpc]
        omega
      · intro j u hj hpcu
        rcases eq_or_ne j i with rfl | hij
        · rw [get?_set_self _ _ _ (get?_lt ht)] at hj
          cases hj
          exact absurd rfl hpcu
        · rw [get?_set_ne _ _ _ _ hij.symm] at hj
          obtain ⟨-, h3⟩ := hlockinv j u hj hpcu
          rw [hholder] at h3
          injection h3 with h4
          exact absurd h4.symm hij
      · intro j u v hj hpcu
        rcases eq_or_ne j i with rfl | hij
        · rw [get?_set_self _ _ _ (get?_lt ht)] at hj
          cases hj
          cases hpcu
        · rw [get?_set_ne _ _ _ _ hij.symm] at hj
          obtain ⟨-, h3⟩ := hlockinv j u hj (by rw [hpcu]; simp)
          rw [hholder] at h3
          injection h3 with h4
          exact absurd h4.symm hij

/-- C1: for every workload `ks` (any number of concurrent caller threads,
thread `j` making `ks[j]` calls) the guarded counter ends at exactly the
total number of increment calls: in every reachable state in which all
threads have completed all their calls, `value` equals `ks.sum` — with the
lock, no update is ever lost under any interleaving. -/
theorem guarded_counter_exact (ks : List Nat) (s : CState)
    (hreach : Reachable CState.stepOf (CState.init ks) s)
    (hdone : ∀ t ∈ s.threads, t.pc = .idle ∧ t.remaining = 0) :
    s.value = ks.sum := by
  have hinv : CInv ks s := by
    clear hdone
    induction hreach with
    | refl => exact cinv_init ks
    | tail hr hstep ih => exact cstep_inv ks _ _ hstep ih
  obtain ⟨heqn, -, -⟩ := hinv
  have hr : s.remSum = 0 := by
    unfold CState.remSum
    apply List.sum_eq_zero
    intro x hx
    obtain ⟨t, htm, rfl⟩ := List.mem_map.mp hx
    exact (hdone t htm).2
  have hw : s.wroteCount = 0 := by
    unfold CState.wroteCount
    apply List.sum_eq_zero
    intro x hx
    obtain ⟨t, htm, rfl⟩ := List.mem_map.mp hx
    have hpc := (hdone t htm).1
    simp [CThread.wroteBit, hpc]
  omega

/-- Witness for C1 at a concrete input: two threads with one call each, run
to completion in an explicit interleaving; the final value is 2. -/
theorem guarded_counter_exact_witness :
    (CState.mk 2 none [⟨0, .idle⟩, ⟨0, .idle⟩]).value = ([1, 1] : List Nat).sum :=
  guarded_counter_exact [1, 1] _
    (runSched_reachable CState.stepOf [0, 0, 0, 0, 1, 1, 1, 1] _ _ (by decide))
    (by decide)

end Part1

/-! ### Part 2 — bakery system properties -/

namespace Part2

theorem bakery_step_produced (s s2 : BakerySimulation)
    (h : StepRel BakerySimulation.stepOf s s2) (hle : s.items_produced ≤ s.total_items) :
    s2.items_produced ≤ s2.total_items ∧ s2.total_items = s.total_items := by
  obtain ⟨k, hk⟩ := h
  unfold BakerySimulation.stepOf at hk
  split at hk
  · unfold BakerySimulation.bakerStep at hk
    split at hk
    · cases hk
    · split at hk <;> (cases hk; exact ⟨hle, rfl⟩)
    · split at hk
      · cases hk; exact ⟨hle, rfl⟩
      · rename_i hlt
        cases hk
        refine ⟨?_, rfl⟩
        show s.items_produced + 1 ≤ s.total_items
        omega
    · cases hk; exact ⟨hle, rfl⟩
    · split at hk <;> (cases hk; exact ⟨hle, rfl⟩)
    · cases hk
  · unfold BakerySimulation.customerStep at hk
    split at hk
    · cases hk
    · split at hk <;> (cases hk; exact ⟨hle, rfl⟩)
    · split at hk
      · cases hk; exact ⟨hle, rfl⟩
      · split at hk <;> (cases hk; exact ⟨hle, rfl⟩)
    · cases hk; exact ⟨hle, rfl⟩
    · cases hk

/-- C10: `items_produced` never exceeds the configured `total_items` in any
reachable state of the simulation, for any number of baker and customer
threads: the baker's check of `items_produced >= total_items` and its
reservation `items_produced += 1` form one lock-protected critical section,
so at most `total_items` items are ever counted as produced. -/
theorem produced_never_exceeds_total (nb nc cap T : Nat) (s : BakerySimulation)
    (h : Reachable BakerySimulation.stepOf (BakerySimulation.init nb nc cap T) s) :
    s.items_produced ≤ s.total_items := by
  have key : s.items_produced ≤ s.total_items ∧ s.total_items = T := by
    induction h with
    | refl => exact ⟨Nat.zero_le _, rfl⟩
    | tail hr hstep ih =>
      have h2 := bakery_step_produced _ _ hstep ih.1
      exact ⟨h2.1, h2.2.trans ih.2⟩
  exact key.1

/-- Witness for C10 at a concrete input: the state of the 2-baker, 2-customer
scenario after Baker-1 has reserved bread 0 inside the critical section. -/
theorem produced_never_exceeds_total_witness :
    (BakerySimulation.mk ⟨5, []⟩ 12 1 0 false [.prep 0, .loopTop] [.loopTop, .loopTop]).items_produced ≤
      (BakerySimulation.mk ⟨5, []⟩ 12 1 0 false [.prep 0, .loopTop] [.loopTop, .loopTop]).total_items :=
  produced_never_exceeds_total 2 2 5 12 _
    (runSched_reachable BakerySimulation.stepOf [0, 0] _ _ (by decide))

/-- C5: a complete schedule of the concrete scenario — capacity 5, 12 total
items, 2 bakers, 2 customers — on which the code finishes with
`items_produced = 12` but `items_consumed = 5` and an empty basket: the
basket stays full through the timeout of seven baker puts (the customers are
delayed), each timed-out put drops its already-counted bread and bakes the
next one, so seven produced items are never consumed.  The claimed
`items_consumed == 12` therefore fails on this execution. -/
theorem bakery_scenario_dropped_items :
    runSched BakerySimulation.stepOf (BakerySimulation.init 2 2 5 12)
        (List.replicate 50 0 ++ 1 :: (List.replicate 16 2 ++ [3])) =
      some (BakerySimulation.mk ⟨5, []⟩ 12 12 5 true
        [.finished, .finished] [.finished, .finished]) ∧
    (5 : Nat) ≠ 12 := by
  constructor
  · decide
  · decide

end Part2

end ConcurrencyDemos
